import Mathlib

/-!
Verification of the silver-tracker inventory valuation pipeline
(`src/app.py`): the inventory normalizer `_normalize_inventory`, the
price oracle `get_silver_price`, and the module-level valuation block
(melt values, totals, profit/loss).

Tables are shallowly embedded: a pandas DataFrame is a list of column
names together with rows of cells, and each pandas primitive used by the
source (`pd.to_numeric(errors="coerce")`, `pd.to_datetime(errors="coerce").dt.date`,
`Series.fillna(0)`, `Series.sum()`, column assignment, `DataFrame.rename`)
is modelled cell-wise. Floats are modelled as rationals; NaN/NaT is an
explicit cell constructor.
-/

namespace SilverTracker

/-- A single cell of a raw table. A pandas cell is modelled by how the
pandas parsers treat it: `num` is a numeric (float) value, `date` a
`datetime.date` (as days since the epoch), `nan` the missing-value marker
(NaN/NaT), `blank` a Python `None`, and `text` a string together with the
outcome of numeric parsing (`asNum`) and of date parsing (`asDate`) of that
string, since the program only ever observes a string through those two
parsers. -/
inductive Cell where
  | blank : Cell
  | nan : Cell
  | num (q : ℚ) : Cell
  | date (d : ℤ) : Cell
  | text (s : String) (asNum : Option ℚ) (asDate : Option ℤ) : Cell
  deriving DecidableEq, Repr

/-- Fallback spot price (src/app.py line 21: FALLBACK_SPOT = 69.00). -/
def FALLBACK_SPOT : ℚ := 69

/-- Nanoseconds per day; pd.to_datetime interprets a bare number as
nanoseconds since the epoch. -/
def nsPerDay : ℚ := 86400000000000

/-- Model of pd.to_numeric(_, errors="coerce") on one cell: numbers pass
through, parseable strings become their number, everything else becomes
NaN. -/
def toNumeric : Cell → Cell
  | .blank => .nan
  | .nan => .nan
  | .num q => .num q
  | .date _ => .nan
  | .text _ a _ => match a with
    | some q => .num q
    | none => .nan

/-- Model of pd.to_datetime(_, errors="coerce").dt.date on one cell:
dates pass through, parseable strings become their date, a bare number is
read as nanoseconds since the epoch, everything else becomes NaT. -/
def dateCoerce : Cell → Cell
  | .blank => .nan
  | .nan => .nan
  | .num q => .date ⌊q / nsPerDay⌋
  | .date d => .date d
  | .text _ _ b => match b with
    | some d => .date d
    | none => .nan

/-- Model of Series.fillna(0) on one cell (pandas fills both NaN and None). -/
def fillna0 : Cell → Cell
  | .blank => .num 0
  | .nan => .num 0
  | c => c

/-- The numeric value of a cell, `none` when the cell is not a number;
pandas arithmetic and skipna sums treat non-numeric cells as NA. -/
def cellNum : Cell → Option ℚ
  | .num q => some q
  | _ => none

/-- Model of Series.sum(): pandas sums a column skipping NA cells; an empty
or all-NA column sums to 0.0. -/
def pandasSum (l : List Cell) : ℚ := (l.filterMap cellNum).sum

/-- A row of a table, positionally aligned with the column names. -/
abbrev Row := List Cell

/-- A pandas DataFrame: column names plus rows of cells. -/
structure Table where
  cols : List String
  rows : List Row
  deriving DecidableEq, Repr

/-- A pandas DataFrame is rectangular: every row has one cell per column. -/
def Table.WF (t : Table) : Prop := ∀ r ∈ t.rows, r.length = t.cols.length

instance (t : Table) : Decidable t.WF := by
  unfold Table.WF
  infer_instance

/-- Canonical weight column name. -/
def wcol : String := "Weight (troy oz)"

/-- Legacy weight column name. -/
def lcol : String := "Weight (ozt)"

/-- Price-paid column name. -/
def ppcol : String := "Price Paid ($)"

/-- Modifier column name. -/
def mcol : String := "Modifier ($)"

/-- Date column name. -/
def dcol : String := "Date Acquired"

/-- Per-item melt value column name, added by the valuation block. -/
def meltcol : String := "Item Melt Value ($)"

/-- The numeric columns list of _normalize_inventory (src/app.py line 70). -/
def numeric_cols : List String := [wcol, lcol, ppcol, mcol]

/-- Column assignment df[name] = f(df[name]) on one row: apply f at every
position whose column name is `name`. -/
def mapColRow (name : String) (f : Cell → Cell) : List String → Row → Row
  | c :: cs, v :: vs => (if c = name then f v else v) :: mapColRow name f cs vs
  | _, r => r

/-- Column assignment df[name] = f(df[name]) on a whole table. -/
def Table.mapCol (t : Table) (name : String) (f : Cell → Cell) : Table :=
  ⟨t.cols, t.rows.map (mapColRow name f t.cols)⟩

/-- Model of df.rename(columns=\x7bold: more\x7d): every column named `old`
is renamed. -/
def Table.renameCol (t : Table) (old more : String) : Table :=
  ⟨t.cols.map (fun c => if c = old then more else c), t.rows⟩

/-- The cell of a row under column `name` (first matching column);
callers guard membership. -/
def lookupCell (name : String) : List String → Row → Cell
  | c :: cs, v :: vs => if c = name then v else lookupCell name cs vs
  | _, _ => .blank

/-- Column access df[name] as a list of cells (one per row). -/
def Table.col (t : Table) (name : String) : List Cell :=
  t.rows.map (fun r => lookupCell name t.cols r)

/-- Appending a fresh column df[name] = vals (one value per row). -/
def Table.addCol (t : Table) (name : String) (vals : List Cell) : Table :=
  ⟨t.cols ++ [name], List.zipWith (fun r v => r ++ [v]) t.rows vals⟩

/-- Python exceptions that the modelled code can raise. -/
inductive PyErr where
  | attributeError : PyErr
  | keyError : PyErr
  | valueError : PyErr
  | typeError : PyErr
  deriving DecidableEq, Repr

/-- Model of _normalize_inventory (src/app.py lines 53-75). The input is
`none` for a Python `None` argument. Note the source runs `df = df.copy()`
before its `if df is None` check, so a `None` input raises AttributeError
and the None branch is dead code. For a DataFrame input: the Date Acquired
column (when present) is date-coerced (the surrounding try/except never
fires for the total cell-wise coercion model), then each of the four
declared numeric columns present is numerically coerced. -/
def _normalize_inventory (df : Option Table) : Except PyErr Table :=
  match df with
  | none => .error .attributeError
  | some t =>
    let t1 := if dcol ∈ t.cols then t.mapCol dcol dateCoerce else t
    let t2 := numeric_cols.foldl
      (fun acc c => if c ∈ acc.cols then acc.mapCol c toNumeric else acc) t1
    .ok t2

/-- A JSON value sitting under the "price" key of the upstream response:
a number, a string (with the outcome of float() parsing attached), a
boolean (float(True) is 1.0 and float(False) is 0.0), JSON null (Python
None), or any other shape (object/array) on which float() raises
TypeError. -/
inductive Json where
  | num (q : ℚ) : Json
  | str (s : String) (asNum : Option ℚ) : Json
  | jbool (b : Bool) : Json
  | null : Json
  | other : Json
  deriving DecidableEq, Repr

/-- The body of an upstream HTTP response: malformed (not JSON, so
response.json() raises the JSONDecodeError of requests), valid JSON that
is not an object (an array, string, number or bare null, on which the
dict method call data.get("price") raises AttributeError), or a JSON
object whose "price" field is absent (`none`) or holds a value. -/
inductive Body where
  | malformed : Body
  | nonObject : Body
  | obj (price : Option Json) : Body
  deriving DecidableEq, Repr

/-- The outcome of the network request: a transport error / timeout
(requests raises RequestException), or a response with a success flag
(raise_for_status) and a body. -/
inductive NetOutcome where
  | transportError : NetOutcome
  | response (success : Bool) (body : Body) : NetOutcome
  deriving DecidableEq, Repr

/-- The environment get_silver_price runs in: the configured credential
(st.secrets.get) and what the upstream would do if called. -/
structure Env where
  apiKey : Option String
  outcome : NetOutcome
  deriving DecidableEq, Repr

/-- Observable side effects of get_silver_price: the outbound network
request and the two log calls. -/
inductive Effect where
  | netGet : Effect
  | logInfo : Effect
  | logWarning : Effect
  deriving DecidableEq, Repr

/-- Model of Python float(x) on a JSON-decoded value: numbers convert,
strings parse or raise ValueError, booleans convert to 1.0 / 0.0, and
None or a list/dict raises TypeError. -/
def pyFloat : Json → Except PyErr ℚ
  | .num q => .ok q
  | .str _ (some q) => .ok q
  | .str _ none => .error .valueError
  | .jbool b => .ok (if b then 1 else 0)
  | .null => .error .typeError
  | .other => .error .typeError

/-- Model of get_silver_price (src/app.py lines 24-50), returning the
result (or the escaping exception) together with the list of performed
effects. The `if not api_key` guard treats both a missing secret (None)
and an empty-string secret as absent: the fallback is returned and no
request is made. A transport error, a non-success status
(raise_for_status) and a malformed JSON body (the JSONDecodeError of
requests is a RequestException) are all caught by the
`except RequestException` handler and yield the fallback. On a valid JSON
body that is not an object, data.get("price") raises AttributeError,
which is NOT a RequestException and escapes. A missing or null "price"
field yields the fallback. Otherwise `float(price)` runs: its
ValueError/TypeError on an unparseable-string or list/dict price value
also escapes to the caller. -/
def get_silver_price (env : Env) : Except PyErr ℚ × List Effect :=
  match env.apiKey with
  | none => (.ok FALLBACK_SPOT, [.logInfo])
  | some key =>
    if key = "" then (.ok FALLBACK_SPOT, [.logInfo])
    else
      match env.outcome with
      | .transportError => (.ok FALLBACK_SPOT, [.netGet, .logWarning])
      | .response success body =>
        if success = false then (.ok FALLBACK_SPOT, [.netGet, .logWarning])
        else
          match body with
          | .malformed => (.ok FALLBACK_SPOT, [.netGet, .logWarning])
          | .nonObject => (.error .attributeError, [.netGet])
          | .obj none => (.ok FALLBACK_SPOT, [.netGet, .logWarning])
          | .obj (some .null) => (.ok FALLBACK_SPOT, [.netGet, .logWarning])
          | .obj (some p) => (pyFloat p, [.netGet])

/-- The coercion applied by the valuation block to each numeric column:
pd.to_numeric(_, errors="coerce").fillna(0) (src/app.py lines 188, 193,
197). -/
def coerceFill (c : Cell) : Cell := fillna0 (toNumeric c)

/-- Per-item melt value (src/app.py line 211): weight * spot +
modifier.fillna(0); pandas arithmetic yields NaN when either operand is
not numeric. -/
def meltCell (spot : ℚ) (w m : Cell) : Cell :=
  match cellNum w, cellNum (fillna0 m) with
  | some a, some b => .num (a * spot + b)
  | _, _ => .nan

/-- The result of the valuation block: the table as mutated by the block
(numeric/date coercions, legacy-weight rename, appended melt column in
the positive branch), the four displayed aggregates, and the computed
per-item melt column (`none` in the zero-weight branch, where no melt
values are computed). -/
structure ValuationResult where
  table : Table
  total_troy_oz : ℚ
  total_melt : ℚ
  total_paid : ℚ
  pl : ℚ
  perItem : Option (List Cell)
  deriving DecidableEq, Repr

/-- The coercion passes of the valuation block (src/app.py lines 186-200):
the weight column is numerically coerced and NaN-filled (after a
legacy-name rename when only the legacy name is present), Price Paid and
Modifier are coerced and filled when present, and the date column is
date-coerced. -/
def valuationPre (t : Table) : Table :=
  let t1 :=
    if wcol ∈ t.cols then t.mapCol wcol coerceFill
    else if lcol ∈ t.cols then (t.renameCol lcol wcol).mapCol wcol coerceFill
    else t
  let t2 := [ppcol, mcol].foldl
    (fun acc c => if c ∈ acc.cols then acc.mapCol c coerceFill else acc) t1
  if dcol ∈ t2.cols then t2.mapCol dcol dateCoerce else t2

/-- The computation of the valuation block (src/app.py lines 202-215) on
the coerced table: the total weight is summed with a 0 default when no
weight column exists; if the total is not positive all derived totals are
0 and no melt values are computed; otherwise the melt column is computed
and appended and the totals are summed. df[...] on a missing column
raises KeyError. -/
def valuationTail (u : Table) (spot : ℚ) : Except PyErr ValuationResult :=
  let total := if wcol ∈ u.cols then pandasSum (u.col wcol) else 0
  if total ≤ 0 then
    .ok ⟨u, total, 0, 0, 0, none⟩
  else
    if wcol ∈ u.cols then
      if mcol ∈ u.cols then
        let melt := List.zipWith (meltCell spot) (u.col wcol) (u.col mcol)
        let t4 := u.addCol meltcol melt
        let total_melt := pandasSum melt
        if ppcol ∈ t4.cols then
          let total_paid := pandasSum (t4.col ppcol)
          .ok ⟨t4, total, total_melt, total_paid, total_melt - total_paid, some melt⟩
        else .error .keyError
      else .error .keyError
    else .error .keyError

/-- Model of the whole valuation block (src/app.py lines 186-215). -/
def valuation (t : Table) (spot : ℚ) : Except PyErr ValuationResult :=
  valuationTail (valuationPre t) spot

/-- Model of the pre-export canonicalization (src/app.py lines 289-291):
rename the legacy weight column to the canonical name when the canonical
one is absent. -/
def exportPrep (t : Table) : Table :=
  if lcol ∈ t.cols ∧ wcol ∉ t.cols then t.renameCol lcol wcol else t

/-- CSV round trip of one cell: to_csv writes the textual form of the value and
read_csv parses the column back. A number round-trips as a number, NaN and
None export as an empty cell read back as NaN, a date exports as its ISO
string which read_csv keeps as text (and which date-parses back to the
same date), a numeric-looking string is read back as its number, and any
other text is kept as text. The CSV encode/decode mechanics themselves are
standard and out of scope; only this value-level behaviour is used. -/
def csvCell : Cell → Cell
  | .blank => .nan
  | .nan => .nan
  | .num q => .num q
  | .date d => .text (toString d) none (some d)
  | .text _ (some q) _ => .num q
  | .text s none b => .text s none b

/-- CSV round trip of a whole table (to_csv then pd.read_csv). -/
def csvRound (t : Table) : Table := ⟨t.cols, t.rows.map (fun r => r.map csvCell)⟩

/-- The numeric value the pipeline ends up using for a raw cell: its
parsed number, or 0 when numeric coercion yields NaN. -/
def resolveNum (c : Cell) : ℚ :=
  match toNumeric c with
  | .num q => q
  | _ => 0

/-- The resolved numeric values of a raw column. -/
def resolvedCol (t : Table) (name : String) : List ℚ := (t.col name).map resolveNum

/-- The raw cells the valuation block reads as weights: the canonical
weight column, else the legacy weight column, else nothing. -/
def rawWeights (t : Table) : List Cell :=
  if wcol ∈ t.cols then t.col wcol
  else if lcol ∈ t.cols then t.col lcol
  else []

/-- The resolved numeric weights of the raw table. -/
def resolvedWeights (t : Table) : List ℚ := (rawWeights t).map resolveNum

/-- The total weight the valuation block computes, predicted from the raw
table (0 when no weight column exists). -/
def totalTroyOz (t : Table) : ℚ := (resolvedWeights t).sum

/-- The per-item melt values predicted from the raw table: resolved
weight times spot plus resolved modifier, row by row. -/
def meltList (t : Table) (spot : ℚ) : List ℚ :=
  List.zipWith (fun w m => w * spot + m) (resolvedWeights t) (resolvedCol t mcol)

/-- The float value of a JSON price value when float() succeeds on it:
the number itself, the parsed string, or 1.0 / 0.0 for a boolean. -/
def jsonFloatVal : Json → Option ℚ
  | .num q => some q
  | .str _ (some q) => some q
  | .jbool b => some (if b then 1 else 0)
  | _ => none

/-- The price extracted from the upstream response when every guard of
get_silver_price is passed: non-empty credential present, success status,
JSON object with a "price" value that float() accepts. -/
def upstreamPrice (e : Env) : Option ℚ :=
  match e.apiKey, e.outcome with
  | some key, .response true (.obj (some j)) =>
    if key = "" then none else jsonFloatVal j
  | _, _ => none

/-- A JSON price value on which float() does not raise: a number, a
parseable string, a boolean, or null. -/
def tameJson : Json → Bool
  | .num _ => true
  | .str _ (some _) => true
  | .str _ none => false
  | .jbool _ => true
  | .null => true
  | .other => false

/-- An environment in which the body of the upstream response, when it is
served, is a JSON object whose price field, when present, holds a value
float() accepts. -/
def tameEnv (e : Env) : Bool :=
  match e.outcome with
  | .response _ .nonObject => false
  | .response _ (.obj (some j)) => tameJson j
  | _ => true

/-- Apply a per-column-name cell transformation positionally along a row;
the common normal form of the column-wise passes of the pipeline. -/
def rowApply (h : String → Cell → Cell) : List String → Row → Row
  | c :: cs, v :: vs => h c v :: rowApply h cs vs
  | _, r => r

/-- The per-position action of one column assignment. -/
def colFun (a : String) (f : Cell → Cell) (c : String) (v : Cell) : Cell :=
  if c = a then f v else v

/-- A whole table transformed by a per-column-name cell transformation. -/
def Table.applyAll (t : Table) (h : String → Cell → Cell) : Table :=
  ⟨t.cols, t.rows.map (rowApply h t.cols)⟩

/-- The per-position action of _normalize_inventory: numeric columns are
numerically coerced, the date column is date-coerced, other columns are
untouched. -/
def normFun (c : String) (v : Cell) : Cell :=
  if c ∈ numeric_cols then toNumeric v
  else if c = dcol then dateCoerce v
  else v

/-- Concrete raw table for the idempotence witness: a malformed date, a
malformed weight, and a text description. -/
def c4ex : Table :=
  ⟨[dcol, wcol, "Description"],
    [[Cell.text ("2bad") none none, Cell.text ("xx") none none, Cell.text ("hi") none none]]⟩

/-- The normalization of the c4ex table. -/
def c4exN : Table :=
  ⟨[dcol, wcol, "Description"], [[Cell.nan, Cell.nan, Cell.text ("hi") none none]]⟩

/-- Concrete table with only the legacy weight column. -/
def c8ex : Table := ⟨[lcol], [[Cell.num 1]]⟩

/-- Environment whose upstream succeeds but whose price field is a
non-numeric string; float() raises ValueError inside get_silver_price. -/
def c2envBad : Env := ⟨some ("key"), .response true (.obj (some (.str ("surge") none)))⟩

/-- Environment whose upstream succeeds with a numeric price of 0. -/
def c2envZero : Env := ⟨some ("key"), .response true (.obj (some (.num 0)))⟩

/-- Environment whose upstream succeeds with a valid JSON body that is
not an object (e.g. an array); data.get("price") raises AttributeError. -/
def c2envArr : Env := ⟨some ("key"), .response true .nonObject⟩

/-- The per-position action of the coercion passes of the valuation block:
the weight / price-paid / modifier columns are coerced and NaN-filled,
the date column is date-coerced, other columns are untouched. -/
def valFun (c : String) (v : Cell) : Cell :=
  if c = wcol ∨ c = ppcol ∨ c = mcol then coerceFill v
  else if c = dcol then dateCoerce v
  else v

/-- The column names after the legacy-weight rename of the valuation block. -/
def valCols (t : Table) : List String :=
  if wcol ∈ t.cols then t.cols
  else if lcol ∈ t.cols then t.cols.map (fun c => if c = lcol then wcol else c)
  else t.cols

/-- Normal form of the coercion passes of the valuation block. -/
def valPre (t : Table) : Table := ⟨valCols t, t.rows.map (rowApply valFun (valCols t))⟩

/-- Concrete all-zero-weight inventory for the C6 witness. -/
def c6ex : Table := ⟨[wcol, ppcol, mcol], [[Cell.num 0, Cell.num 10, Cell.num 2]]⟩

/-- The single-item inventory of the worked example: weight 2.0, price
paid 50.00, modifier -5.00. -/
def exC1 : Table := ⟨[wcol, ppcol, mcol], [[Cell.num 2, Cell.num 50, Cell.num (-5)]]⟩

/-- Legacy-only inventory for the C8 amended witness. -/
def c8ex2 : Table := ⟨[lcol, ppcol, mcol], [[Cell.num 2, Cell.num 50, Cell.num (-5)]]⟩

/-- Negative-weight inventory: one row of weight 3 and one of weight -1,
total 2 > 0, so the weights of both rows are consumed by the melt computation. -/
def c10ex : Table :=
  ⟨[wcol, ppcol, mcol],
    [[Cell.num 3, Cell.num 0, Cell.num 0], [Cell.num (-1), Cell.num 0, Cell.num 0]]⟩

/-- Inventory with a malformed weight cell and a missing modifier cell. -/
def c5ex : Table :=
  ⟨[wcol, ppcol, mcol],
    [[Cell.text ("oops") none none, Cell.num 5, Cell.blank],
     [Cell.num 1, Cell.num 2, Cell.num 3]]⟩

/-- Inventory whose raw weight and price-paid values are all non-negative. -/
def c10ok : Table := ⟨[wcol, ppcol, mcol], [[Cell.num 2, Cell.num 50, Cell.num 0]]⟩

/-- A cell that a numeric column holds after normalization: a number or
NaN. -/
def goodNumCell : Cell → Bool
  | .num _ => true
  | .nan => true
  | _ => false

/-- A cell that the date column holds after normalization: a date or NaT. -/
def goodDateCell : Cell → Bool
  | .date _ => true
  | .nan => true
  | _ => false

/-- Well-typedness of one cell for its column in a normalized inventory:
numeric columns hold numbers or NaN, the date column holds dates or NaT,
and any other column holds values stable under a CSV round trip. -/
def cellClassOK (c : String) (v : Cell) : Bool :=
  if c ∈ numeric_cols then goodNumCell v
  else if c = dcol then goodDateCell v
  else decide (csvCell v = v)

/-- Well-typedness of a row against its column names. -/
def rowOK : List String → Row → Bool
  | c :: cs, v :: vs => cellClassOK c v && rowOK cs vs
  | _, _ => true

/-- A normalized inventory: every cell well-typed for its column. -/
def Normalized (t : Table) : Prop := ∀ r ∈ t.rows, rowOK t.cols r = true

instance (t : Table) : Decidable (Normalized t) := by
  unfold Normalized
  infer_instance

/-- Concrete normalized inventory for the round-trip witness, with a text
description, numeric cells, a date, and a row of missing values. -/
def c9ex : Table :=
  ⟨["Description", wcol, dcol, ppcol, mcol],
    [[Cell.text ("Coin") none none, Cell.num 2, Cell.date 19700, Cell.num 50, Cell.num (-5)],
     [Cell.nan, Cell.nan, Cell.nan, Cell.nan, Cell.nan]]⟩

theorem mapColRow_length (name : String) (f : Cell → Cell) :
    ∀ cols row, (mapColRow name f cols row).length = row.length := by
  intro cols
  induction cols with
  | nil => intro row; rfl
  | cons c cs ih =>
    intro row
    cases row with
    | nil => rfl
    | cons v vs => simp [mapColRow, ih]

theorem mapColRow_eq_rowApply (name : String) (f : Cell → Cell) :
    ∀ cols row, mapColRow name f cols row
      = rowApply (fun c v => if c = name then f v else v) cols row := by
  intro cols
  induction cols with
  | nil => intro row; rfl
  | cons c cs ih =>
    intro row
    cases row with
    | nil => rfl
    | cons v vs => simp [mapColRow, rowApply, ih]

theorem rowApply_rowApply (h1 h2 : String → Cell → Cell) :
    ∀ cols row, rowApply h1 cols (rowApply h2 cols row)
      = rowApply (fun c v => h1 c (h2 c v)) cols row := by
  intro cols
  induction cols with
  | nil => intro row; rfl
  | cons c cs ih =>
    intro row
    cases row with
    | nil => rfl
    | cons v vs => simp [rowApply, ih]

theorem rowApply_congr (h1 h2 : String → Cell → Cell)
    (H : ∀ c v, h1 c v = h2 c v) :
    ∀ cols row, rowApply h1 cols row = rowApply h2 cols row := by
  intro cols
  induction cols with
  | nil => intro row; rfl
  | cons c cs ih =>
    intro row
    cases row with
    | nil => rfl
    | cons v vs => simp [rowApply, ih, H]

theorem mapColRow_absent (name : String) (f : Cell → Cell) :
    ∀ cols row, name ∉ cols → mapColRow name f cols row = row := by
  intro cols
  induction cols with
  | nil => intro row _; cases row <;> rfl
  | cons c cs ih =>
    intro row hn
    cases row with
    | nil => rfl
    | cons v vs =>
      have hc : c ≠ name := fun h => hn (h ▸ List.mem_cons_self c cs)
      simp [mapColRow, hc, ih vs (fun h => hn (List.mem_cons_of_mem c h))]

theorem mapCol_absent (t : Table) (name : String) (f : Cell → Cell)
    (h : name ∉ t.cols) : t.mapCol name f = t := by
  cases t with
  | mk cols rows =>
    simp only [Table.mapCol]
    congr 1
    exact List.map_congr_left (fun r _ => mapColRow_absent name f cols r h) |>.trans
      (List.map_id rows)

theorem mapCol_guard (t : Table) (name : String) (f : Cell → Cell) :
    (if name ∈ t.cols then t.mapCol name f else t) = t.mapCol name f := by
  by_cases h : name ∈ t.cols
  · simp [h]
  · simp [h, mapCol_absent t name f h]

theorem lookup_rowApply (h : String → Cell → Cell) (name : String) :
    ∀ cols row, name ∈ cols → cols.length ≤ row.length →
      lookupCell name cols (rowApply h cols row) = h name (lookupCell name cols row) := by
  intro cols
  induction cols with
  | nil => intro row hn; exact absurd hn (List.not_mem_nil name)
  | cons c cs ih =>
    intro row hn hl
    cases row with
    | nil => simp at hl
    | cons v vs =>
      by_cases hc : c = name
      · subst hc; simp [rowApply, lookupCell]
      · have hn2 : name ∈ cs := by
          rcases List.mem_cons.mp hn with h1 | h1
          · exact absurd h1.symm hc
          · exact h1
        have hl2 : cs.length ≤ vs.length := by simpa using Nat.le_of_succ_le_succ (by simpa using hl)
        simp [rowApply, lookupCell, hc, ih vs hn2 hl2]

theorem lookup_mapColRow_other (n m : String) (hne : n ≠ m) (f : Cell → Cell) :
    ∀ cols row, lookupCell n cols (mapColRow m f cols row) = lookupCell n cols row := by
  intro cols
  induction cols with
  | nil => intro row; rfl
  | cons c cs ih =>
    intro row
    cases row with
    | nil => rfl
    | cons v vs =>
      have hmn : ¬ (m = n) := fun h => hne h.symm
      by_cases hc : c = n
      · subst hc
        simp [mapColRow, lookupCell, hne]
      · by_cases hm : c = m <;> simp [mapColRow, lookupCell, hc, hm, hmn, ih vs]

theorem lookup_append (n : String) :
    ∀ (cols : List String) (row : Row) (cols2 : List String) (row2 : Row),
      n ∈ cols → cols.length ≤ row.length →
      lookupCell n (cols ++ cols2) (row ++ row2) = lookupCell n cols row := by
  intro cols
  induction cols with
  | nil => intro row cols2 row2 hn; exact absurd hn (List.not_mem_nil n)
  | cons c cs ih =>
    intro row cols2 row2 hn hl
    cases row with
    | nil => simp at hl
    | cons v vs =>
      by_cases hc : c = n
      · simp [lookupCell, hc]
      · have hn2 : n ∈ cs := by
          rcases List.mem_cons.mp hn with h1 | h1
          · exact absurd h1.symm hc
          · exact h1
        have hl2 : cs.length ≤ vs.length := by simpa using Nat.le_of_succ_le_succ (by simpa using hl)
        simp [lookupCell, hc, ih vs cols2 row2 hn2 hl2]

theorem applyAll_cols (t : Table) (h : String → Cell → Cell) :
    (t.applyAll h).cols = t.cols := rfl

theorem mapCol_cols (t : Table) (a : String) (f : Cell → Cell) :
    (t.mapCol a f).cols = t.cols := rfl

theorem mapCol_eq_applyAll (t : Table) (a : String) (f : Cell → Cell) :
    t.mapCol a f = t.applyAll (colFun a f) := by
  cases t with
  | mk cols rows =>
    simp only [Table.mapCol, Table.applyAll]
    congr 1
    exact List.map_congr_left (fun r _ => mapColRow_eq_rowApply a f cols r)

theorem applyAll_mapCol (t : Table) (h : String → Cell → Cell) (a : String)
    (f : Cell → Cell) :
    (t.applyAll h).mapCol a f = t.applyAll (fun c v => colFun a f c (h c v)) := by
  cases t with
  | mk cols rows =>
    simp only [mapCol_eq_applyAll, Table.applyAll, List.map_map]
    congr 1
    exact List.map_congr_left (fun r _ => rowApply_rowApply (colFun a f) h cols r)

theorem applyAll_congr (t : Table) (h1 h2 : String → Cell → Cell)
    (H : ∀ c v, h1 c v = h2 c v) : t.applyAll h1 = t.applyAll h2 := by
  cases t with
  | mk cols rows =>
    simp only [Table.applyAll]
    congr 1
    exact List.map_congr_left (fun r _ => rowApply_congr h1 h2 H cols r)

theorem applyAll_applyAll (t : Table) (h1 h2 : String → Cell → Cell) :
    (t.applyAll h1).applyAll h2 = t.applyAll (fun c v => h2 c (h1 c v)) := by
  cases t with
  | mk cols rows =>
    simp only [Table.applyAll, List.map_map]
    congr 1
    exact List.map_congr_left (fun r _ => rowApply_rowApply h2 h1 cols r)

theorem normalize_some_eq (t : Table) :
    _normalize_inventory (some t) = .ok (t.applyAll normFun) := by
  have step : ∀ u : Table,
      numeric_cols.foldl (fun acc c => if c ∈ acc.cols then acc.mapCol c toNumeric else acc) u
        = (((u.mapCol wcol toNumeric).mapCol lcol toNumeric).mapCol ppcol
            toNumeric).mapCol mcol toNumeric := by
    intro u
    simp only [numeric_cols, List.foldl_cons, List.foldl_nil, mapCol_guard]
  show (Except.ok _ : Except PyErr Table) = _
  rw [mapCol_guard, step]
  simp only [mapCol_eq_applyAll, applyAll_applyAll]
  congr 1
  apply applyAll_congr
  intro c v
  by_cases h1 : c = wcol
  · subst h1; simp [colFun, normFun, numeric_cols, wcol, lcol, ppcol, mcol, dcol]
  · by_cases h2 : c = lcol
    · subst h2; simp [colFun, normFun, numeric_cols, wcol, lcol, ppcol, mcol, dcol]
    · by_cases h3 : c = ppcol
      · subst h3; simp [colFun, normFun, numeric_cols, wcol, lcol, ppcol, mcol, dcol]
      · by_cases h4 : c = mcol
        · subst h4; simp [colFun, normFun, numeric_cols, wcol, lcol, ppcol, mcol, dcol]
        · by_cases h5 : c = dcol
          · subst h5; simp [colFun, normFun, numeric_cols, wcol, lcol, ppcol, mcol, dcol]
          · simp [colFun, normFun, numeric_cols, h1, h2, h3, h4, h5]

theorem lookup_map_cell (g : Cell → Cell) (name : String) :
    ∀ cols row, name ∈ cols → cols.length ≤ row.length →
      lookupCell name cols (row.map g) = g (lookupCell name cols row) := by
  intro cols
  induction cols with
  | nil => intro row hn; exact absurd hn (List.not_mem_nil name)
  | cons c cs ih =>
    intro row hn hl
    cases row with
    | nil => simp at hl
    | cons v vs =>
      by_cases hc : c = name
      · simp [lookupCell, hc]
      · have hn2 : name ∈ cs := by
          rcases List.mem_cons.mp hn with h1 | h1
          · exact absurd h1.symm hc
          · exact h1
        have hl2 : cs.length ≤ vs.length := by simpa using Nat.le_of_succ_le_succ (by simpa using hl)
        simp [lookupCell, hc, ih vs hn2 hl2]

theorem toNumeric_toNumeric (v : Cell) : toNumeric (toNumeric v) = toNumeric v := by
  cases v with
  | text s a b => cases a <;> rfl
  | blank => rfl
  | nan => rfl
  | num q => rfl
  | date d => rfl

theorem dateCoerce_dateCoerce (v : Cell) : dateCoerce (dateCoerce v) = dateCoerce v := by
  cases v with
  | text s a b => cases b <;> rfl
  | blank => rfl
  | nan => rfl
  | num q => rfl
  | date d => rfl

theorem normFun_normFun (c : String) (v : Cell) : normFun c (normFun c v) = normFun c v := by
  by_cases h1 : c ∈ numeric_cols
  · simp [normFun, h1, toNumeric_toNumeric]
  · by_cases h2 : c = dcol
    · subst h2
      simp [normFun, (by decide : dcol ∉ numeric_cols), dateCoerce_dateCoerce]
    · simp [normFun, h1, h2]

/-- C3: _normalize_inventory does not satisfy the never-propagates-an-
exception contract on a missing (None) table: `df.copy()` runs before the
`df is None` check, so a None input raises AttributeError (the None branch
of the source is dead code). On every actual table it does return a
structurally valid table without error. -/
theorem C3_normalize_none_raises :
    _normalize_inventory none = .error .attributeError ∧
      ∀ t : Table, ∃ u : Table, _normalize_inventory (some t) = .ok u :=
  ⟨rfl, fun t => ⟨t.applyAll normFun, normalize_some_eq t⟩⟩

/-- C4: _normalize_inventory is idempotent on tables: normalizing the
output of a normalization returns it unchanged. -/
theorem C4_normalize_idempotent (t u : Table)
    (h : _normalize_inventory (some t) = .ok u) :
    _normalize_inventory (some u) = .ok u := by
  rw [normalize_some_eq] at h
  injection h with h
  subst h
  rw [normalize_some_eq, applyAll_applyAll]
  exact congrArg Except.ok (applyAll_congr t _ _ normFun_normFun)

theorem C4_witness :
    _normalize_inventory (some c4ex) = .ok c4exN ∧
      _normalize_inventory (some c4exN) = .ok c4exN :=
  ⟨by rfl, C4_normalize_idempotent c4ex c4exN (by rfl)⟩

/-- C8 counterexample: _normalize_inventory performs NO rename of the
legacy weight column: on a table whose only column is the legacy name it
returns the table unchanged, with the canonical name still absent. -/
theorem C8_counterexample :
    _normalize_inventory (some c8ex) = .ok c8ex ∧
      lcol ∈ c8ex.cols ∧ wcol ∉ c8ex.cols :=
  ⟨by rfl, by decide, by decide⟩

/-- C2 counterexample: get_silver_price is not total and not always
positive. With a credential configured and a successful upstream response
whose price field is a non-numeric string, the ValueError raised by
float() escapes to the caller (it is not a RequestException); with a
valid non-object JSON body, the AttributeError raised by
data.get("price") escapes likewise; and with a numeric price of 0 the
function returns 0, which is not positive. -/
theorem C2_counterexample :
    (get_silver_price c2envBad).1 = .error .valueError ∧
      (get_silver_price c2envArr).1 = .error .attributeError ∧
      (get_silver_price c2envZero).1 = .ok 0 ∧ ¬ (0 < (0 : ℚ)) :=
  ⟨rfl, rfl, rfl, by norm_num⟩

/-- C2 amended: whenever the body of a successful upstream response is a
JSON object whose price field, if present, holds a value float() accepts
(a number, a numerically parseable string, a boolean, or null),
get_silver_price returns without raising; the returned value is either
the float value of the upstream price or the fallback 69.00, hence it is
positive whenever every upstream-supplied price value is positive. -/
theorem C2_total_and_positive_when_tame (e : Env) (h : tameEnv e = true) :
    ∃ q : ℚ, (get_silver_price e).1 = .ok q ∧
      (upstreamPrice e = some q ∨ q = FALLBACK_SPOT) ∧
      ((∀ p : ℚ, upstreamPrice e = some p → 0 < p) → 0 < q) := by
  obtain ⟨k, o⟩ := e
  have hfb : (0 : ℚ) < FALLBACK_SPOT := by norm_num [FALLBACK_SPOT]
  cases k with
  | none =>
    exact ⟨FALLBACK_SPOT, rfl, Or.inr rfl, fun _ => hfb⟩
  | some key =>
    by_cases hk : key = ""
    · subst hk
      exact ⟨FALLBACK_SPOT, rfl, Or.inr rfl, fun _ => hfb⟩
    · cases o with
      | transportError =>
        refine ⟨FALLBACK_SPOT, ?_, Or.inr rfl, fun _ => hfb⟩
        simp [get_silver_price, hk]
      | response success body =>
        cases success with
        | false =>
          refine ⟨FALLBACK_SPOT, ?_, Or.inr rfl, fun _ => hfb⟩
          simp [get_silver_price, hk]
        | true =>
          cases body with
          | malformed =>
            refine ⟨FALLBACK_SPOT, ?_, Or.inr rfl, fun _ => hfb⟩
            simp [get_silver_price, hk]
          | nonObject => simp [tameEnv] at h
          | obj price =>
            cases price with
            | none =>
              refine ⟨FALLBACK_SPOT, ?_, Or.inr rfl, fun _ => hfb⟩
              simp [get_silver_price, hk]
            | some j =>
              cases j with
              | num q =>
                refine ⟨q, ?_, Or.inl ?_, fun hp => hp q ?_⟩
                · simp [get_silver_price, hk, pyFloat]
                · simp [upstreamPrice, hk, jsonFloatVal]
                · simp [upstreamPrice, hk, jsonFloatVal]
              | str s a =>
                cases a with
                | none => simp [tameEnv, tameJson] at h
                | some q =>
                  refine ⟨q, ?_, Or.inl ?_, fun hp => hp q ?_⟩
                  · simp [get_silver_price, hk, pyFloat]
                  · simp [upstreamPrice, hk, jsonFloatVal]
                  · simp [upstreamPrice, hk, jsonFloatVal]
              | jbool b =>
                refine ⟨if b then 1 else 0, ?_, Or.inl ?_, fun hp => hp _ ?_⟩
                · simp [get_silver_price, hk, pyFloat]
                · simp [upstreamPrice, hk, jsonFloatVal]
                · simp [upstreamPrice, hk, jsonFloatVal]
              | null =>
                refine ⟨FALLBACK_SPOT, ?_, Or.inr rfl, fun _ => hfb⟩
                simp [get_silver_price, hk]
              | other => simp [tameEnv, tameJson] at h

theorem C2_witness :
    tameEnv ⟨some ("key"), .transportError⟩ = true ∧
      ∃ q : ℚ, (get_silver_price ⟨some ("key"), .transportError⟩).1 = .ok q ∧
        (upstreamPrice ⟨some ("key"), .transportError⟩ = some q ∨ q = FALLBACK_SPOT) ∧
        ((∀ p : ℚ, upstreamPrice ⟨some ("key"), .transportError⟩ = some p → 0 < p) → 0 < q) :=
  ⟨by decide, C2_total_and_positive_when_tame ⟨some ("key"), .transportError⟩ (by decide)⟩

/-- C7: with no credential configured, get_silver_price returns the
documented fallback 69.00, logs only, and performs no network request. -/
theorem C7_no_credential_fallback (e : Env) (h : e.apiKey = none) :
    (get_silver_price e).1 = .ok FALLBACK_SPOT ∧ FALLBACK_SPOT = 69 ∧
      Effect.netGet ∉ (get_silver_price e).2 := by
  obtain ⟨k, o⟩ := e
  simp only at h
  subst h
  refine ⟨rfl, rfl, ?_⟩
  simp [get_silver_price]

theorem C7_witness :
    (get_silver_price ⟨none, .transportError⟩).1 = .ok FALLBACK_SPOT ∧
      FALLBACK_SPOT = 69 ∧
      Effect.netGet ∉ (get_silver_price ⟨none, .transportError⟩).2 :=
  C7_no_credential_fallback ⟨none, .transportError⟩ rfl

theorem rowApply_congr_mem (h1 h2 : String → Cell → Cell) :
    ∀ cols row, (∀ c ∈ cols, ∀ v, h1 c v = h2 c v) →
      rowApply h1 cols row = rowApply h2 cols row := by
  intro cols
  induction cols with
  | nil => intro row _; rfl
  | cons c cs ih =>
    intro row H
    cases row with
    | nil => rfl
    | cons v vs =>
      simp only [rowApply]
      rw [H c (List.mem_cons_self c cs) v,
        ih vs (fun d hd w => H d (List.mem_cons_of_mem c hd) w)]

theorem applyAll_congr_mem (t : Table) (h1 h2 : String → Cell → Cell)
    (H : ∀ c ∈ t.cols, ∀ v, h1 c v = h2 c v) : t.applyAll h1 = t.applyAll h2 := by
  cases t with
  | mk cols rows =>
    simp only [Table.applyAll]
    congr 1
    exact List.map_congr_left (fun r _ => rowApply_congr_mem h1 h2 cols r H)

theorem valFun_eq_comp (c : String) (v : Cell) :
    colFun dcol dateCoerce c (colFun mcol coerceFill c
      (colFun ppcol coerceFill c (colFun wcol coerceFill c v))) = valFun c v := by
  by_cases h1 : c = wcol
  · subst h1; simp [colFun, valFun, wcol, ppcol, mcol, dcol]
  · by_cases h2 : c = ppcol
    · subst h2; simp [colFun, valFun, wcol, ppcol, mcol, dcol]
    · by_cases h3 : c = mcol
      · subst h3; simp [colFun, valFun, wcol, ppcol, mcol, dcol]
      · by_cases h4 : c = dcol
        · subst h4; simp [colFun, valFun, wcol, ppcol, mcol, dcol]
        · simp [colFun, valFun, h1, h2, h3, h4]

theorem valFun_eq_comp3 (c : String) (v : Cell) (hc : c ≠ wcol) :
    colFun dcol dateCoerce c (colFun mcol coerceFill c (colFun ppcol coerceFill c v))
      = valFun c v := by
  by_cases h2 : c = ppcol
  · subst h2; simp [colFun, valFun, wcol, ppcol, mcol, dcol]
  · by_cases h3 : c = mcol
    · subst h3; simp [colFun, valFun, wcol, ppcol, mcol, dcol]
    · by_cases h4 : c = dcol
      · subst h4; simp [colFun, valFun, wcol, ppcol, mcol, dcol]
      · simp [colFun, valFun, hc, h2, h3, h4]

theorem valuationPre_eq (t : Table) : valuationPre t = valPre t := by
  unfold valuationPre
  simp only [List.foldl_cons, List.foldl_nil, mapCol_guard]
  by_cases hw : wcol ∈ t.cols
  · rw [if_pos hw]
    simp only [mapCol_eq_applyAll, applyAll_applyAll]
    have hcols : valCols t = t.cols := by simp [valCols, hw]
    show _ = valPre t
    unfold valPre
    rw [hcols]
    exact applyAll_congr t _ valFun (fun c v => valFun_eq_comp c v)
  · rw [if_neg hw]
    by_cases hl : lcol ∈ t.cols
    · rw [if_pos hl]
      simp only [mapCol_eq_applyAll, applyAll_applyAll]
      have hcols : valCols t = (t.renameCol lcol wcol).cols := by
        simp [valCols, hw, hl, Table.renameCol]
      show _ = valPre t
      unfold valPre
      rw [hcols]
      exact applyAll_congr (t.renameCol lcol wcol) _ valFun (fun c v => valFun_eq_comp c v)
    · rw [if_neg hl]
      simp only [mapCol_eq_applyAll, applyAll_applyAll]
      have hcols : valCols t = t.cols := by simp [valCols, hw, hl]
      show _ = valPre t
      unfold valPre
      rw [hcols]
      refine applyAll_congr_mem t _ valFun (fun c hc v => ?_)
      have hcw : c ≠ wcol := fun h => hw (h ▸ hc)
      exact valFun_eq_comp3 c v hcw

theorem rowApply_length (h : String → Cell → Cell) :
    ∀ cols row, (rowApply h cols row).length = row.length := by
  intro cols
  induction cols with
  | nil => intro row; rfl
  | cons c cs ih =>
    intro row
    cases row with
    | nil => rfl
    | cons v vs => simp [rowApply, ih]

theorem valCols_length (t : Table) : (valCols t).length = t.cols.length := by
  unfold valCols
  by_cases hw : wcol ∈ t.cols
  · simp [hw]
  · by_cases hl : lcol ∈ t.cols <;> simp [hw, hl]

theorem valPre_WF (t : Table) (hwf : t.WF) : (valPre t).WF := by
  intro r hr
  simp only [valPre, List.mem_map] at hr
  obtain ⟨r0, hr0, rfl⟩ := hr
  show (rowApply valFun (valCols t) r0).length = (valPre t).cols.length
  rw [rowApply_length, show (valPre t).cols = valCols t from rfl, valCols_length]
  exact hwf r0 hr0

theorem valPre_rows_length (t : Table) : (valPre t).rows.length = t.rows.length := by
  simp [valPre]

theorem lookup_rename_self (old more : String) :
    ∀ (cols : List String) (row : Row), more ∉ cols →
      lookupCell more (cols.map (fun c => if c = old then more else c)) row
        = lookupCell old cols row := by
  intro cols
  induction cols with
  | nil => intro row _; rfl
  | cons c cs ih =>
    intro row hm
    have hcm : c ≠ more := fun h => hm (h ▸ List.mem_cons_self c cs)
    have hm2 : more ∉ cs := fun h => hm (List.mem_cons_of_mem c h)
    cases row with
    | nil => simp [lookupCell]
    | cons v vs =>
      by_cases hco : c = old
      · subst hco; simp [lookupCell]
      · simp [lookupCell, hco, hcm, ih vs hm2]

theorem lookup_rename_other (old more n : String) (hno : n ≠ old) (hnm : n ≠ more) :
    ∀ (cols : List String) (row : Row),
      lookupCell n (cols.map (fun c => if c = old then more else c)) row
        = lookupCell n cols row := by
  intro cols
  induction cols with
  | nil => intro row; rfl
  | cons c cs ih =>
    intro row
    cases row with
    | nil => simp [lookupCell]
    | cons v vs =>
      by_cases hco : c = old
      · subst hco
        have hmn : ¬ (more = n) := fun h => hnm h.symm
        have hon : ¬ (c = n) := fun h => hno h.symm
        simp [lookupCell, hmn, hon, ih vs]
      · simp [lookupCell, hco, ih vs]

theorem mem_valCols_iff (t : Table) (n : String) (hnw : n ≠ wcol) (hnl : n ≠ lcol) :
    n ∈ valCols t ↔ n ∈ t.cols := by
  unfold valCols
  by_cases hw : wcol ∈ t.cols
  · simp [hw]
  · by_cases hl : lcol ∈ t.cols
    · simp only [hw, hl, if_false, if_true]
      constructor
      · intro h
        obtain ⟨c, hc, hcn⟩ := List.mem_map.mp h
        by_cases hcl : c = lcol
        · rw [if_pos hcl] at hcn
          exact absurd hcn.symm hnw
        · rw [if_neg hcl] at hcn
          exact hcn ▸ hc
      · intro h
        exact List.mem_map.mpr ⟨n, h, by simp [hnl]⟩
    · simp [hw, hl]

theorem wcol_mem_valCols (t : Table) :
    wcol ∈ valCols t ↔ (wcol ∈ t.cols ∨ lcol ∈ t.cols) := by
  unfold valCols
  by_cases hw : wcol ∈ t.cols
  · rw [if_pos hw]
    exact ⟨fun h => Or.inl h, fun _ => hw⟩
  · rw [if_neg hw]
    by_cases hl : lcol ∈ t.cols
    · rw [if_pos hl]
      constructor
      · intro _; exact Or.inr hl
      · intro _; exact List.mem_map.mpr ⟨lcol, hl, by simp⟩
    · rw [if_neg hl]
      constructor
      · intro h; exact Or.inl h
      · intro h
        rcases h with h | h
        · exact h
        · exact absurd h hl

theorem lcol_not_mem_valCols (t : Table) (hw : wcol ∉ t.cols) : lcol ∉ valCols t := by
  unfold valCols
  rw [if_neg hw]
  by_cases hl : lcol ∈ t.cols
  · rw [if_pos hl]
    intro h
    obtain ⟨c, _, hcn⟩ := List.mem_map.mp h
    by_cases hcl : c = lcol
    · rw [if_pos hcl] at hcn
      exact absurd hcn (by decide)
    · rw [if_neg hcl] at hcn
      exact hcl (hcn ▸ rfl)
  · rw [if_neg hl]
    exact hl

theorem valPre_col (t : Table) (hwf : t.WF) (n : String) (hn : n ∈ valCols t) :
    (valPre t).col n = (Table.col ⟨valCols t, t.rows⟩ n).map (valFun n) := by
  simp only [valPre, Table.col, List.map_map]
  apply List.map_congr_left
  intro r hr
  simp only [Function.comp_apply]
  have hlen : (valCols t).length ≤ r.length := by
    rw [valCols_length, hwf r hr]
  exact lookup_rowApply valFun n (valCols t) r hn hlen

theorem renamedBase_col_w (t : Table) (hw : wcol ∈ t.cols) :
    Table.col ⟨valCols t, t.rows⟩ wcol = t.col wcol := by
  have : valCols t = t.cols := by simp [valCols, hw]
  rw [this]

theorem renamedBase_col_w_legacy (t : Table) (hw : wcol ∉ t.cols) (hl : lcol ∈ t.cols) :
    Table.col ⟨valCols t, t.rows⟩ wcol = t.col lcol := by
  have : valCols t = t.cols.map (fun c => if c = lcol then wcol else c) := by
    simp [valCols, hw, hl]
  rw [this]
  simp only [Table.col]
  exact List.map_congr_left (fun r _ => lookup_rename_self lcol wcol t.cols r hw)

theorem renamedBase_col_other (t : Table) (n : String) (hnw : n ≠ wcol) (hnl : n ≠ lcol) :
    Table.col ⟨valCols t, t.rows⟩ n = t.col n := by
  unfold valCols
  by_cases hw : wcol ∈ t.cols
  · rw [if_pos hw]
  · rw [if_neg hw]
    by_cases hl : lcol ∈ t.cols
    · rw [if_pos hl]
      simp only [Table.col]
      exact List.map_congr_left (fun r _ => lookup_rename_other lcol wcol n hnl hnw t.cols r)
    · rw [if_neg hl]

theorem coerceFill_eq (c : Cell) : coerceFill c = .num (resolveNum c) := by
  cases c with
  | text s a b => cases a <;> rfl
  | blank => rfl
  | nan => rfl
  | num q => rfl
  | date d => rfl

theorem valFun_wcol (v : Cell) : valFun wcol v = coerceFill v := by
  simp [valFun]

theorem valFun_ppcol (v : Cell) : valFun ppcol v = coerceFill v := by
  simp [valFun]

theorem valFun_mcol (v : Cell) : valFun mcol v = coerceFill v := by
  simp [valFun]

theorem valPre_col_weights (t : Table) (hwf : t.WF)
    (hworl : wcol ∈ t.cols ∨ lcol ∈ t.cols) :
    (valPre t).col wcol = (rawWeights t).map (fun c => Cell.num (resolveNum c)) := by
  by_cases hw : wcol ∈ t.cols
  · rw [valPre_col t hwf wcol ((wcol_mem_valCols t).mpr (Or.inl hw)),
      renamedBase_col_w t hw]
    have : rawWeights t = t.col wcol := by simp [rawWeights, hw]
    rw [this]
    exact List.map_congr_left (fun c _ => (valFun_wcol c).trans (coerceFill_eq c))
  · have hl : lcol ∈ t.cols := hworl.resolve_left hw
    rw [valPre_col t hwf wcol ((wcol_mem_valCols t).mpr (Or.inr hl)),
      renamedBase_col_w_legacy t hw hl]
    have : rawWeights t = t.col lcol := by simp [rawWeights, hw, hl]
    rw [this]
    exact List.map_congr_left (fun c _ => (valFun_wcol c).trans (coerceFill_eq c))

theorem valPre_col_pp (t : Table) (hwf : t.WF) (hp : ppcol ∈ t.cols) :
    (valPre t).col ppcol = (t.col ppcol).map (fun c => Cell.num (resolveNum c)) := by
  rw [valPre_col t hwf ppcol
      ((mem_valCols_iff t ppcol (by decide) (by decide)).mpr hp),
    renamedBase_col_other t ppcol (by decide) (by decide)]
  exact List.map_congr_left (fun c _ => (valFun_ppcol c).trans (coerceFill_eq c))

theorem valPre_col_m (t : Table) (hwf : t.WF) (hm : mcol ∈ t.cols) :
    (valPre t).col mcol = (t.col mcol).map (fun c => Cell.num (resolveNum c)) := by
  rw [valPre_col t hwf mcol
      ((mem_valCols_iff t mcol (by decide) (by decide)).mpr hm),
    renamedBase_col_other t mcol (by decide) (by decide)]
  exact List.map_congr_left (fun c _ => (valFun_mcol c).trans (coerceFill_eq c))

theorem pandasSum_map_num (g : Cell → ℚ) (l : List Cell) :
    pandasSum (l.map (fun c => Cell.num (g c))) = (l.map g).sum := by
  induction l with
  | nil => rfl
  | cons a l ih => simp [pandasSum, cellNum, List.filterMap_cons] at ih ⊢; simp [ih]

theorem pandasSum_nums (l : List ℚ) : pandasSum (l.map Cell.num) = l.sum := by
  induction l with
  | nil => rfl
  | cons a l ih => simp [pandasSum, cellNum, List.filterMap_cons] at ih ⊢; simp [ih]

theorem zipWith_meltCell (spot : ℚ) (f g : Cell → ℚ) :
    ∀ as bs : List Cell,
      List.zipWith (meltCell spot) (as.map (fun c => Cell.num (f c)))
          (bs.map (fun c => Cell.num (g c)))
        = (List.zipWith (fun a b => f a * spot + g b) as bs).map Cell.num := by
  intro as
  induction as with
  | nil => intro bs; rfl
  | cons a as ih =>
    intro bs
    cases bs with
    | nil => rfl
    | cons b bs => simp [meltCell, cellNum, fillna0, ih bs]

theorem zipWith_map_both {α β γ δ μ : Type} (f : γ → δ → μ) (g : α → γ) (h : β → δ) :
    ∀ (l1 : List α) (l2 : List β),
      List.zipWith f (l1.map g) (l2.map h)
        = List.zipWith (fun a b => f (g a) (h b)) l1 l2 := by
  intro l1
  induction l1 with
  | nil => intro l2; rfl
  | cons a l1 ih =>
    intro l2
    cases l2 with
    | nil => rfl
    | cons b l2 => simp [ih l2]

theorem col_length (t : Table) (n : String) : (t.col n).length = t.rows.length := by
  simp [Table.col]

theorem rawWeights_length (t : Table) (hworl : wcol ∈ t.cols ∨ lcol ∈ t.cols) :
    (rawWeights t).length = t.rows.length := by
  by_cases hw : wcol ∈ t.cols
  · simp [rawWeights, hw, col_length]
  · have hl : lcol ∈ t.cols := hworl.resolve_left hw
    simp [rawWeights, hw, hl, col_length]

theorem map_lookup_zip_append (cols : List String) (n m : String) (hm : m ∈ cols) :
    ∀ (rows : List Row) (vals : List Cell),
      (∀ r ∈ rows, r.length = cols.length) → vals.length = rows.length →
      (List.zipWith (fun r v => r ++ [v]) rows vals).map
          (fun r => lookupCell m (cols ++ [n]) r)
        = rows.map (fun r => lookupCell m cols r) := by
  intro rows
  induction rows with
  | nil =>
    intro vals _ hlen
    have : vals = [] := List.length_eq_zero.mp (by simpa using hlen)
    subst this
    rfl
  | cons r rs ih =>
    intro vals hwf hlen
    cases vals with
    | nil => simp at hlen
    | cons v vs =>
      simp only [List.zipWith_cons_cons, List.map_cons]
      rw [lookup_append m cols r [n] [v] hm
          (le_of_eq (hwf r (List.mem_cons_self r rs)).symm),
        ih vs (fun x hx => hwf x (List.mem_cons_of_mem r hx)) (by simpa using hlen)]

theorem col_addCol (t : Table) (n : String) (vals : List Cell) (m : String)
    (hwf : t.WF) (hm : m ∈ t.cols) (hlen : vals.length = t.rows.length) :
    (t.addCol n vals).col m = t.col m := by
  obtain ⟨cols, rows⟩ := t
  simp only [Table.addCol, Table.col] at hwf hm hlen ⊢
  exact map_lookup_zip_append cols n m hm rows vals hwf hlen

theorem valPre_total (t : Table) (hwf : t.WF) :
    (if wcol ∈ (valPre t).cols then pandasSum ((valPre t).col wcol) else 0)
      = totalTroyOz t := by
  by_cases hworl : wcol ∈ t.cols ∨ lcol ∈ t.cols
  · have hmem : wcol ∈ (valPre t).cols := (wcol_mem_valCols t).mpr hworl
    rw [if_pos hmem, valPre_col_weights t hwf hworl, pandasSum_map_num]
    rfl
  · push_neg at hworl
    have hmem : wcol ∉ (valPre t).cols := by
      intro h
      rcases (wcol_mem_valCols t).mp h with h1 | h1
      · exact hworl.1 h1
      · exact hworl.2 h1
    rw [if_neg hmem]
    simp [totalTroyOz, resolvedWeights, rawWeights, hworl.1, hworl.2]

theorem meltList_length (t : Table) (spot : ℚ)
    (hworl : wcol ∈ t.cols ∨ lcol ∈ t.cols) :
    (meltList t spot).length = t.rows.length := by
  simp [meltList, List.length_zipWith, resolvedWeights, resolvedCol,
    rawWeights_length t hworl, col_length]

/-- Zero branch of the valuation block: with non-positive total weight,
all derived totals are 0 and no per-item melt values are computed. -/
theorem valuation_zero_eq (t : Table) (spot : ℚ) (hwf : t.WF)
    (h : totalTroyOz t ≤ 0) :
    valuation t spot = .ok ⟨valPre t, totalTroyOz t, 0, 0, 0, none⟩ := by
  unfold valuation
  rw [valuationPre_eq]
  show valuationTail (valPre t) spot = _
  unfold valuationTail
  simp only []
  rw [valPre_total t hwf, if_pos h]

/-- Positive branch of the valuation block, fully evaluated in terms of
the raw table. -/
theorem valuation_pos_eq (t : Table) (spot : ℚ) (hwf : t.WF)
    (hworl : wcol ∈ t.cols ∨ lcol ∈ t.cols) (hp : ppcol ∈ t.cols)
    (hm : mcol ∈ t.cols) (hpos : ¬ totalTroyOz t ≤ 0) :
    valuation t spot = .ok
      ⟨(valPre t).addCol meltcol ((meltList t spot).map Cell.num),
        totalTroyOz t, (meltList t spot).sum, (resolvedCol t ppcol).sum,
        (meltList t spot).sum - (resolvedCol t ppcol).sum,
        some ((meltList t spot).map Cell.num)⟩ := by
  unfold valuation
  rw [valuationPre_eq]
  show valuationTail (valPre t) spot = _
  unfold valuationTail
  simp only []
  rw [valPre_total t hwf, if_neg hpos]
  have hmemw : wcol ∈ (valPre t).cols := (wcol_mem_valCols t).mpr hworl
  have hmemm : mcol ∈ (valPre t).cols :=
    (mem_valCols_iff t mcol (by decide) (by decide)).mpr hm
  have hmempp0 : ppcol ∈ (valPre t).cols :=
    (mem_valCols_iff t ppcol (by decide) (by decide)).mpr hp
  rw [if_pos hmemw, if_pos hmemm]
  have hmelt : List.zipWith (meltCell spot) ((valPre t).col wcol) ((valPre t).col mcol)
      = (meltList t spot).map Cell.num := by
    rw [valPre_col_weights t hwf hworl, valPre_col_m t hwf hm, zipWith_meltCell]
    unfold meltList resolvedWeights resolvedCol
    rw [zipWith_map_both]
  rw [hmelt]
  have hlenm : ((meltList t spot).map Cell.num).length = (valPre t).rows.length := by
    rw [List.length_map, meltList_length t spot hworl, valPre_rows_length]
  have hmempp : ppcol ∈ ((valPre t).addCol meltcol ((meltList t spot).map Cell.num)).cols := by
    show ppcol ∈ (valPre t).cols ++ [meltcol]
    exact List.mem_append.mpr (Or.inl hmempp0)
  rw [if_pos hmempp]
  have hpp : ((valPre t).addCol meltcol ((meltList t spot).map Cell.num)).col ppcol
      = (t.col ppcol).map (fun c => Cell.num (resolveNum c)) := by
    rw [col_addCol _ _ _ _ (valPre_WF t hwf) hmempp0 hlenm, valPre_col_pp t hwf hp]
  rw [hpp, pandasSum_nums, pandasSum_map_num]
  rfl

/-- Inversion of the valuation block: every successful run is either the
zero branch or the fully-evaluated positive branch. -/
theorem valuation_ok_cases (t : Table) (spot : ℚ) (r : ValuationResult)
    (hwf : t.WF) (hr : valuation t spot = .ok r) :
    (totalTroyOz t ≤ 0 ∧ r = ⟨valPre t, totalTroyOz t, 0, 0, 0, none⟩) ∨
    (¬ totalTroyOz t ≤ 0 ∧ (wcol ∈ t.cols ∨ lcol ∈ t.cols) ∧ ppcol ∈ t.cols ∧
      mcol ∈ t.cols ∧ r = ⟨(valPre t).addCol meltcol ((meltList t spot).map Cell.num),
        totalTroyOz t, (meltList t spot).sum, (resolvedCol t ppcol).sum,
        (meltList t spot).sum - (resolvedCol t ppcol).sum,
        some ((meltList t spot).map Cell.num)⟩) := by
  by_cases h0 : totalTroyOz t ≤ 0
  · left
    rw [valuation_zero_eq t spot hwf h0] at hr
    injection hr with hr
    exact ⟨h0, hr.symm⟩
  · right
    have hr2 := hr
    unfold valuation at hr2
    rw [valuationPre_eq] at hr2
    unfold valuationTail at hr2
    simp only [] at hr2
    rw [valPre_total t hwf, if_neg h0] at hr2
    by_cases hmw : wcol ∈ (valPre t).cols
    · rw [if_pos hmw] at hr2
      by_cases hmm : mcol ∈ (valPre t).cols
      · rw [if_pos hmm] at hr2
        have hworl : wcol ∈ t.cols ∨ lcol ∈ t.cols := (wcol_mem_valCols t).mp hmw
        have hm : mcol ∈ t.cols := (mem_valCols_iff t mcol (by decide) (by decide)).mp hmm
        by_cases hmp : ppcol ∈ ((valPre t).addCol meltcol
            (List.zipWith (meltCell spot) ((valPre t).col wcol) ((valPre t).col mcol))).cols
        · have hp : ppcol ∈ t.cols := by
            rcases List.mem_append.mp hmp with h1 | h1
            · exact (mem_valCols_iff t ppcol (by decide) (by decide)).mp h1
            · simp at h1
              exact absurd h1 (by decide)
          have := valuation_pos_eq t spot hwf hworl hp hm h0
          rw [this] at hr
          injection hr with hr
          exact ⟨h0, hworl, hp, hm, hr.symm⟩
        · rw [if_neg hmp] at hr2
          exact absurd hr2 (by simp)
      · rw [if_neg hmm] at hr2
        exact absurd hr2 (by simp)
    · rw [if_neg hmw] at hr2
      exact absurd hr2 (by simp)

/-- C6: whenever the total weight is not positive, the valuation block
returns all derived totals (melt value, paid, profit/loss) as exactly 0
and computes no per-item melt values. -/
theorem C6_zero_weight_zero_totals (t : Table) (spot : ℚ) (hwf : t.WF)
    (h : totalTroyOz t ≤ 0) :
    ∃ r : ValuationResult, valuation t spot = .ok r ∧
      r.total_melt = 0 ∧ r.total_paid = 0 ∧ r.pl = 0 ∧ r.perItem = none :=
  ⟨_, valuation_zero_eq t spot hwf h, rfl, rfl, rfl, rfl⟩

theorem C6_witness :
    (c6ex.WF ∧ totalTroyOz c6ex ≤ 0) ∧
      ∃ r : ValuationResult, valuation c6ex 25 = .ok r ∧
        r.total_melt = 0 ∧ r.total_paid = 0 ∧ r.pl = 0 ∧ r.perItem = none := by
  have h0 : totalTroyOz c6ex ≤ 0 := by
    norm_num +decide [totalTroyOz, resolvedWeights, rawWeights, c6ex, Table.col, lookupCell,
      resolveNum, toNumeric, wcol, ppcol, mcol]
  exact ⟨⟨by decide, h0⟩, C6_zero_weight_zero_totals c6ex 25 (by decide) h0⟩

/-- C1: in the positive-weight case the valuation block computes each
melt value of each item as resolved weight times price plus resolved modifier,
and profit/loss as total melt value minus total paid. -/
theorem C1_melt_and_profit (t : Table) (spot : ℚ) (hwf : t.WF)
    (hworl : wcol ∈ t.cols ∨ lcol ∈ t.cols) (hp : ppcol ∈ t.cols)
    (hm : mcol ∈ t.cols) (hpos : 0 < totalTroyOz t) :
    ∃ r : ValuationResult, valuation t spot = .ok r ∧
      r.perItem = some ((meltList t spot).map Cell.num) ∧
      meltList t spot
        = List.zipWith (fun w m => w * spot + m) (resolvedWeights t) (resolvedCol t mcol) ∧
      r.total_melt = (meltList t spot).sum ∧
      r.total_paid = (resolvedCol t ppcol).sum ∧
      r.pl = r.total_melt - r.total_paid :=
  ⟨_, valuation_pos_eq t spot hwf hworl hp hm (not_le.mpr hpos), rfl, rfl, rfl, rfl, rfl⟩

theorem C1_witness :
    (exC1.WF ∧ 0 < totalTroyOz exC1) ∧
      ∃ r : ValuationResult, valuation exC1 25 = .ok r ∧
        r.perItem = some [Cell.num 45] ∧ r.total_melt = 45 ∧
        r.total_paid = 50 ∧ r.pl = -5 := by
  have hpos : 0 < totalTroyOz exC1 := by
    norm_num +decide [totalTroyOz, resolvedWeights, rawWeights, exC1, Table.col, lookupCell,
      resolveNum, toNumeric, wcol, ppcol, mcol]
  have hmelt : meltList exC1 25 = [45] := by
    norm_num +decide [meltList, resolvedWeights, rawWeights, resolvedCol, exC1, Table.col,
      lookupCell, resolveNum, toNumeric, wcol, ppcol, mcol]
  have hpaid : resolvedCol exC1 ppcol = [50] := by
    norm_num +decide [resolvedCol, exC1, Table.col, lookupCell, resolveNum, toNumeric,
      wcol, ppcol, mcol]
  refine ⟨⟨by decide, hpos⟩, ?_⟩
  obtain ⟨r, hr, hpi, _, hml, hpd, hpl⟩ :=
    C1_melt_and_profit exC1 25 (by decide) (by decide) (by decide) (by decide) hpos
  refine ⟨r, hr, ?_, ?_, ?_, ?_⟩
  · rw [hpi, hmelt]; rfl
  · rw [hml, hmelt]; norm_num
  · rw [hpd, hpaid]; norm_num
  · rw [hpl, hml, hpd, hmelt, hpaid]; norm_num

/-- C5: the values the valuation block computes with are the resolved
numeric values of the raw cells: malformed cells coerce to NaN
(toNumeric) and NaN resolves to 0 (resolveNum) before any computation;
every coerced column consists of plain numbers, the per-item melt column
contains only plain numbers (never NaN), and the sums range over the
resolved values. -/
theorem C5_malformed_resolved (t : Table) (spot : ℚ) (r : ValuationResult)
    (hwf : t.WF) (hr : valuation t spot = .ok r) :
    (∀ (s : String) (d : Option ℤ), toNumeric (Cell.text s none d) = Cell.nan) ∧
    (∀ c : Cell, toNumeric c = Cell.nan → resolveNum c = 0) ∧
    (wcol ∈ t.cols →
      r.table.col wcol = (t.col wcol).map (fun c => Cell.num (resolveNum c))) ∧
    (ppcol ∈ t.cols →
      r.table.col ppcol = (t.col ppcol).map (fun c => Cell.num (resolveNum c))) ∧
    (mcol ∈ t.cols →
      r.table.col mcol = (t.col mcol).map (fun c => Cell.num (resolveNum c))) ∧
    (∀ L, r.perItem = some L →
      L = (meltList t spot).map Cell.num ∧
      (∀ cl ∈ L, ∃ q, cl = Cell.num q) ∧
      r.total_melt = (meltList t spot).sum ∧
      r.total_paid = (resolvedCol t ppcol).sum) := by
  have hres : ∀ c : Cell, toNumeric c = Cell.nan → resolveNum c = 0 := by
    intro c h
    unfold resolveNum
    rw [h]
  rcases valuation_ok_cases t spot r hwf hr with ⟨h0, rfl⟩ | ⟨h0, hworl, hp, hm, rfl⟩
  · refine ⟨fun s d => rfl, hres, ?_, ?_, ?_, ?_⟩
    · intro hw
      have heq : rawWeights t = t.col wcol := by simp [rawWeights, hw]
      have hcw := valPre_col_weights t hwf (Or.inl hw)
      rw [heq] at hcw
      exact hcw
    · intro hp2
      exact valPre_col_pp t hwf hp2
    · intro hm2
      exact valPre_col_m t hwf hm2
    · intro L hL
      exact absurd hL (by simp)
  · have hlenm : ((meltList t spot).map Cell.num).length = (valPre t).rows.length := by
      rw [List.length_map, meltList_length t spot hworl, valPre_rows_length]
    refine ⟨fun s d => rfl, hres, ?_, ?_, ?_, ?_⟩
    · intro hw
      show ((valPre t).addCol meltcol _).col wcol = _
      rw [col_addCol _ _ _ _ (valPre_WF t hwf)
          ((wcol_mem_valCols t).mpr (Or.inl hw)) hlenm]
      have heq : rawWeights t = t.col wcol := by simp [rawWeights, hw]
      have hcw := valPre_col_weights t hwf (Or.inl hw)
      rw [heq] at hcw
      exact hcw
    · intro hp2
      show ((valPre t).addCol meltcol _).col ppcol = _
      rw [col_addCol _ _ _ _ (valPre_WF t hwf)
          ((mem_valCols_iff t ppcol (by decide) (by decide)).mpr hp2) hlenm]
      exact valPre_col_pp t hwf hp2
    · intro hm2
      show ((valPre t).addCol meltcol _).col mcol = _
      rw [col_addCol _ _ _ _ (valPre_WF t hwf)
          ((mem_valCols_iff t mcol (by decide) (by decide)).mpr hm2) hlenm]
      exact valPre_col_m t hwf hm2
    · intro L hL
      injection hL with hL
      refine ⟨hL.symm, ?_, rfl, rfl⟩
      intro cl hcl
      rw [← hL] at hcl
      obtain ⟨q, _, rfl⟩ := List.mem_map.mp hcl
      exact ⟨q, rfl⟩

/-- C8 amended: the legacy-to-canonical weight column rename is performed
by the valuation block, not by _normalize_inventory: when only the legacy
name is present, every successful valuation has the canonical name (and
not the legacy one) in its table, and the canonical weight column holds
the numerically coerced and NaN-filled values of the raw legacy column. -/
theorem C8_valuation_renames (t : Table) (spot : ℚ) (r : ValuationResult)
    (hwf : t.WF) (hl : lcol ∈ t.cols) (hw : wcol ∉ t.cols)
    (hr : valuation t spot = .ok r) :
    wcol ∈ r.table.cols ∧ lcol ∉ r.table.cols ∧
      r.table.col wcol = (t.col lcol).map (fun c => Cell.num (resolveNum c)) := by
  have heq : rawWeights t = t.col lcol := by simp [rawWeights, hw, hl]
  rcases valuation_ok_cases t spot r hwf hr with ⟨h0, rfl⟩ | ⟨h0, hworl, hp, hm, rfl⟩
  · refine ⟨(wcol_mem_valCols t).mpr (Or.inr hl), lcol_not_mem_valCols t hw, ?_⟩
    have hcw := valPre_col_weights t hwf (Or.inr hl)
    rw [heq] at hcw
    exact hcw
  · have hlenm : ((meltList t spot).map Cell.num).length = (valPre t).rows.length := by
      rw [List.length_map, meltList_length t spot hworl, valPre_rows_length]
    refine ⟨?_, ?_, ?_⟩
    · show wcol ∈ (valPre t).cols ++ [meltcol]
      exact List.mem_append.mpr (Or.inl ((wcol_mem_valCols t).mpr (Or.inr hl)))
    · show lcol ∉ (valPre t).cols ++ [meltcol]
      intro hmem
      rcases List.mem_append.mp hmem with h1 | h1
      · exact lcol_not_mem_valCols t hw h1
      · simp at h1
        exact absurd h1 (by decide)
    · show ((valPre t).addCol meltcol _).col wcol = _
      rw [col_addCol _ _ _ _ (valPre_WF t hwf)
          ((wcol_mem_valCols t).mpr (Or.inr hl)) hlenm]
      have hcw := valPre_col_weights t hwf (Or.inr hl)
      rw [heq] at hcw
      exact hcw

/-- C10 counterexample: nothing clamps negative parsed values; on an
inventory with a raw weight of -1 the valuation block consumes the weight
column [3, -1], so a downstream item weight is negative. -/
theorem C10_counterexample :
    (valuation c10ex 10).toOption.map (fun r => r.table.col wcol)
        = some [Cell.num 3, Cell.num (-1)] ∧
      ¬ ((0 : ℚ) ≤ -1) := by
  have hwf : c10ex.WF := by decide
  have hworl : wcol ∈ c10ex.cols ∨ lcol ∈ c10ex.cols := by decide
  have hpos : ¬ totalTroyOz c10ex ≤ 0 := by
    norm_num +decide [totalTroyOz, resolvedWeights, rawWeights, c10ex, Table.col, lookupCell,
      resolveNum, toNumeric, wcol, ppcol, mcol]
  have hr := valuation_pos_eq c10ex 10 hwf hworl (by decide) (by decide) hpos
  have hlenm : ((meltList c10ex 10).map Cell.num).length = (valPre c10ex).rows.length := by
    rw [List.length_map, meltList_length c10ex 10 hworl, valPre_rows_length]
  have hcw : ((valPre c10ex).addCol meltcol ((meltList c10ex 10).map Cell.num)).col wcol
      = [Cell.num 3, Cell.num (-1)] := by
    rw [col_addCol _ _ _ _ (valPre_WF c10ex hwf)
        ((wcol_mem_valCols c10ex).mpr hworl) hlenm,
      valPre_col_weights c10ex hwf hworl]
    norm_num +decide [rawWeights, c10ex, Table.col, lookupCell, resolveNum, toNumeric,
      wcol, ppcol, mcol]
  rw [hr]
  exact ⟨by simp [Except.toOption, hcw], by norm_num⟩

/-- C10 amended: invalid or missing weight and price-paid cells are
coerced to 0, and parsed values pass through unchanged, so every value
the valuation block consumes in those columns is a plain number that is
non-negative provided every raw cell of those columns resolves to a
non-negative number (which holds automatically for invalid and missing
cells, whose resolved value is 0). -/
theorem C10_nonneg_when_raw_nonneg (t : Table) (spot : ℚ) (r : ValuationResult)
    (hwf : t.WF) (hr : valuation t spot = .ok r)
    (hwnn : ∀ c ∈ rawWeights t, 0 ≤ resolveNum c)
    (hpnn : ppcol ∈ t.cols → ∀ c ∈ t.col ppcol, 0 ≤ resolveNum c) :
    (wcol ∈ r.table.cols →
      ∀ cl ∈ r.table.col wcol, ∃ q, cl = Cell.num q ∧ 0 ≤ q) ∧
    (ppcol ∈ r.table.cols →
      ∀ cl ∈ r.table.col ppcol, ∃ q, cl = Cell.num q ∧ 0 ≤ q) := by
  rcases valuation_ok_cases t spot r hwf hr with ⟨h0, rfl⟩ | ⟨h0, hworl, hp, hm, rfl⟩
  · constructor
    · intro hmem cl hcl
      have hworl : wcol ∈ t.cols ∨ lcol ∈ t.cols := (wcol_mem_valCols t).mp hmem
      rw [valPre_col_weights t hwf hworl] at hcl
      obtain ⟨c, hc, rfl⟩ := List.mem_map.mp hcl
      exact ⟨resolveNum c, rfl, hwnn c hc⟩
    · intro hmem cl hcl
      have hp2 : ppcol ∈ t.cols := (mem_valCols_iff t ppcol (by decide) (by decide)).mp hmem
      rw [valPre_col_pp t hwf hp2] at hcl
      obtain ⟨c, hc, rfl⟩ := List.mem_map.mp hcl
      exact ⟨resolveNum c, rfl, hpnn hp2 c hc⟩
  · have hlenm : ((meltList t spot).map Cell.num).length = (valPre t).rows.length := by
      rw [List.length_map, meltList_length t spot hworl, valPre_rows_length]
    constructor
    · intro _ cl hcl
      have hmem : wcol ∈ (valPre t).cols := (wcol_mem_valCols t).mpr hworl
      rw [show ((valPre t).addCol meltcol ((meltList t spot).map Cell.num)).col wcol
            = (valPre t).col wcol from
          col_addCol _ _ _ _ (valPre_WF t hwf) hmem hlenm,
        valPre_col_weights t hwf hworl] at hcl
      obtain ⟨c, hc, rfl⟩ := List.mem_map.mp hcl
      exact ⟨resolveNum c, rfl, hwnn c hc⟩
    · intro _ cl hcl
      have hmem : ppcol ∈ (valPre t).cols :=
        (mem_valCols_iff t ppcol (by decide) (by decide)).mpr hp
      rw [show ((valPre t).addCol meltcol ((meltList t spot).map Cell.num)).col ppcol
            = (valPre t).col ppcol from
          col_addCol _ _ _ _ (valPre_WF t hwf) hmem hlenm,
        valPre_col_pp t hwf hp] at hcl
      obtain ⟨c, hc, rfl⟩ := List.mem_map.mp hcl
      exact ⟨resolveNum c, rfl, hpnn hp c hc⟩

theorem C5_witness :
    c5ex.WF ∧ ∃ r : ValuationResult, valuation c5ex 25 = .ok r ∧
      r.table.col wcol = [Cell.num 0, Cell.num 1] ∧
      (∀ L, r.perItem = some L → ∀ cl ∈ L, ∃ q, cl = Cell.num q) := by
  have hwf : c5ex.WF := by decide
  have hpos : ¬ totalTroyOz c5ex ≤ 0 := by
    norm_num +decide [totalTroyOz, resolvedWeights, rawWeights, c5ex, Table.col,
      lookupCell, resolveNum, toNumeric, wcol, ppcol, mcol]
  have hr := valuation_pos_eq c5ex 25 hwf (by decide) (by decide) (by decide) hpos
  obtain ⟨_, _, hcw, _, _, hitems⟩ := C5_malformed_resolved c5ex 25 _ hwf hr
  refine ⟨hwf, _, hr, ?_, fun L hL => (hitems L hL).2.1⟩
  rw [hcw (by decide)]
  norm_num +decide [c5ex, Table.col, lookupCell, resolveNum, toNumeric, wcol, ppcol, mcol]

theorem C8_witness :
    (c8ex2.WF ∧ lcol ∈ c8ex2.cols ∧ wcol ∉ c8ex2.cols) ∧
      ∃ r : ValuationResult, valuation c8ex2 25 = .ok r ∧ wcol ∈ r.table.cols ∧
        lcol ∉ r.table.cols ∧ r.table.col wcol = [Cell.num 2] := by
  have hwf : c8ex2.WF := by decide
  have hpos : ¬ totalTroyOz c8ex2 ≤ 0 := by
    norm_num +decide [totalTroyOz, resolvedWeights, rawWeights, c8ex2, Table.col,
      lookupCell, resolveNum, toNumeric, wcol, lcol, ppcol, mcol]
  have hr := valuation_pos_eq c8ex2 25 hwf (Or.inr (by decide)) (by decide) (by decide) hpos
  obtain ⟨h1, h2, h3⟩ := C8_valuation_renames c8ex2 25 _ hwf (by decide) (by decide) hr
  refine ⟨⟨hwf, by decide, by decide⟩, _, hr, h1, h2, ?_⟩
  rw [h3]
  norm_num +decide [c8ex2, Table.col, lookupCell, resolveNum, toNumeric,
    wcol, lcol, ppcol, mcol]

theorem C10_witness :
    (c10ok.WF ∧ (∀ c ∈ rawWeights c10ok, 0 ≤ resolveNum c) ∧
      (ppcol ∈ c10ok.cols → ∀ c ∈ c10ok.col ppcol, 0 ≤ resolveNum c)) ∧
      ∃ r : ValuationResult, valuation c10ok 25 = .ok r ∧
        (wcol ∈ r.table.cols → ∀ cl ∈ r.table.col wcol, ∃ q, cl = Cell.num q ∧ 0 ≤ q) ∧
        (ppcol ∈ r.table.cols → ∀ cl ∈ r.table.col ppcol, ∃ q, cl = Cell.num q ∧ 0 ≤ q) := by
  have hwf : c10ok.WF := by decide
  have hwnn : ∀ c ∈ rawWeights c10ok, 0 ≤ resolveNum c := by
    norm_num +decide [rawWeights, c10ok, Table.col, lookupCell, resolveNum, toNumeric,
      wcol, ppcol, mcol]
  have hpnn : ppcol ∈ c10ok.cols → ∀ c ∈ c10ok.col ppcol, 0 ≤ resolveNum c := by
    norm_num +decide [c10ok, Table.col, lookupCell, resolveNum, toNumeric,
      wcol, ppcol, mcol]
  have hpos : ¬ totalTroyOz c10ok ≤ 0 := by
    norm_num +decide [totalTroyOz, resolvedWeights, rawWeights, c10ok, Table.col,
      lookupCell, resolveNum, toNumeric, wcol, ppcol, mcol]
  have hr := valuation_pos_eq c10ok 25 hwf (by decide) (by decide) (by decide) hpos
  obtain ⟨ha, hb⟩ := C10_nonneg_when_raw_nonneg c10ok 25 _ hwf hr hwnn hpnn
  exact ⟨⟨hwf, hwnn, hpnn⟩, _, hr, ha, hb⟩

theorem normFun_csvCell (c : String) (v : Cell) (h : cellClassOK c v = true) :
    normFun c (csvCell v) = v := by
  unfold cellClassOK at h
  by_cases h1 : c ∈ numeric_cols
  · rw [if_pos h1] at h
    cases v with
    | num q => simp [normFun, h1, csvCell, toNumeric]
    | nan => simp [normFun, h1, csvCell, toNumeric]
    | blank => simp [goodNumCell] at h
    | date d => simp [goodNumCell] at h
    | text s a b => simp [goodNumCell] at h
  · rw [if_neg h1] at h
    by_cases h2 : c = dcol
    · subst h2
      rw [if_pos rfl] at h
      cases v with
      | date d => simp [normFun, h1, csvCell, dateCoerce]
      | nan => simp [normFun, h1, csvCell, dateCoerce]
      | blank => simp [goodDateCell] at h
      | num q => simp [goodDateCell] at h
      | text s a b => simp [goodDateCell] at h
    · rw [if_neg h2] at h
      have hcv : csvCell v = v := of_decide_eq_true h
      simp [normFun, h1, h2, hcv]

theorem rowApply_norm_csv : ∀ (cols : List String) (row : Row),
    row.length = cols.length → rowOK cols row = true →
    rowApply normFun cols (row.map csvCell) = row := by
  intro cols
  induction cols with
  | nil =>
    intro row hlen _
    have : row = [] := List.length_eq_zero.mp hlen
    subst this
    rfl
  | cons c cs ih =>
    intro row hlen hok
    cases row with
    | nil => simp at hlen
    | cons v vs =>
      simp only [rowOK, Bool.and_eq_true] at hok
      obtain ⟨h1, h2⟩ := hok
      simp only [List.map_cons, rowApply]
      rw [normFun_csvCell c v h1, ih vs (by simpa using hlen) h2]

theorem cellClassOK_rename (c : String) (v : Cell) :
    cellClassOK (if c = lcol then wcol else c) v = cellClassOK c v := by
  by_cases hc : c = lcol
  · subst hc
    rw [if_pos rfl]
    unfold cellClassOK
    rw [if_pos (by decide : wcol ∈ numeric_cols), if_pos (by decide : lcol ∈ numeric_cols)]
  · rw [if_neg hc]

theorem rowOK_rename : ∀ (cols : List String) (row : Row), rowOK cols row = true →
    rowOK (cols.map (fun c => if c = lcol then wcol else c)) row = true := by
  intro cols
  induction cols with
  | nil => intro row h; exact h
  | cons c cs ih =>
    intro row h
    cases row with
    | nil => rfl
    | cons v vs =>
      simp only [rowOK, Bool.and_eq_true] at h
      obtain ⟨h1, h2⟩ := h
      simp only [List.map_cons, rowOK, Bool.and_eq_true]
      rw [cellClassOK_rename c v]
      exact ⟨h1, ih vs h2⟩

/-- C9: exporting a normalized inventory to the canonical tabular format
(renaming the legacy weight column to the canonical name) and
re-normalizing the CSV round trip of the export reproduces the exported
inventory exactly. -/
theorem C9_export_roundtrip (t : Table) (hwf : t.WF) (hn : Normalized t) :
    _normalize_inventory (some (csvRound (exportPrep t))) = .ok (exportPrep t) := by
  have key : ∀ u : Table, u.WF → (∀ r ∈ u.rows, rowOK u.cols r = true) →
      Table.applyAll (csvRound u) normFun = u := by
    intro u hlen hok
    obtain ⟨cols, rows⟩ := u
    simp only [csvRound, Table.applyAll, List.map_map]
    congr 1
    have hrow : ∀ r ∈ rows, (rowApply normFun cols ∘ List.map csvCell) r = r := by
      intro r hr
      simp only [Function.comp_apply]
      exact rowApply_norm_csv cols r (hlen r hr) (hok r hr)
    rw [List.map_congr_left hrow]
    simp
  have hwfu : (exportPrep t).WF := by
    unfold exportPrep
    by_cases h : lcol ∈ t.cols ∧ wcol ∉ t.cols
    · rw [if_pos h]
      intro r hr
      simp only [Table.renameCol] at hr ⊢
      rw [List.length_map]
      exact hwf r hr
    · rw [if_neg h]
      exact hwf
  have hoku : ∀ r ∈ (exportPrep t).rows, rowOK (exportPrep t).cols r = true := by
    unfold exportPrep
    by_cases h : lcol ∈ t.cols ∧ wcol ∉ t.cols
    · rw [if_pos h]
      intro r hr
      simp only [Table.renameCol] at hr ⊢
      exact rowOK_rename t.cols r (hn r hr)
    · rw [if_neg h]
      exact hn
  rw [normalize_some_eq, key (exportPrep t) hwfu hoku]

theorem C9_witness :
    c9ex.WF ∧ Normalized c9ex ∧
      _normalize_inventory (some (csvRound (exportPrep c9ex))) = .ok (exportPrep c9ex) :=
  ⟨by decide, by decide, C9_export_roundtrip c9ex (by decide) (by decide)⟩

end SilverTracker
